import Mathlib

/-!
Verification of the `bocsr` pipeline orchestrator (`src/main.rs`) against its
natural-language specification.

The orchestrator is shallowly embedded below.  The `bocs` crate's
`CountMinSketch` and `Parser` bodies are not part of this repository's
sources; the sketch is modelled from the specification (see `cmsGet`), and
the parser's output is taken as an input list of records.
-/

namespace Bocsr

/-- Whitespace test used by tokenisation; matches `char::is_whitespace` on the
ASCII whitespace characters that can occur in the artifacts. -/
def isWS (ch : Char) : Bool := ch.isWhitespace

/-- Model of Rust's `str::split_whitespace` on the character list of a string:
the maximal runs of non-whitespace characters, in order, with empty tokens
never produced.  `acc` holds the reversed characters of the token being
accumulated. -/
def wsTokensAux : List Char → List Char → List String
  | [], acc => if acc.isEmpty then [] else [String.mk acc.reverse]
  | ch :: cs, acc =>
    if isWS ch then
      if acc.isEmpty then wsTokensAux cs []
      else String.mk acc.reverse :: wsTokensAux cs []
    else wsTokensAux cs (ch :: acc)

/-- `line.split_whitespace()` collected to a list. -/
def splitWS (s : String) : List String := wsTokensAux s.data []

/-- A record as produced by the parser for one input line: the `uv`
vertex-pair identifier, the multiplicity annotation `c` (kept as the string
it is printed as) and the orbit-pair label `op`.
Modelled from the spec: the `bocs` parser's record type is not in the
repository sources; only the three fields the orchestrator reads are kept. -/
structure Rec where
  uv : String
  c : String
  op : String

/-- Field well-formedness for a record: each field is a nonempty token with
no whitespace characters, which is what the parser's token grammar yields. -/
def wellFormed (r : Rec) : Prop :=
  r.uv ≠ "" ∧ r.c ≠ "" ∧ r.op ≠ "" ∧
    (∀ ch ∈ r.uv.data, isWS ch = false) ∧
    (∀ ch ∈ r.c.data, isWS ch = false) ∧
    (∀ ch ∈ r.op.data, isWS ch = false)

instance (r : Rec) : Decidable (wellFormed r) := by
  unfold wellFormed; infer_instance

/-- The key put into the sketch in pass 1: `format!("{}:{}", uv, op)`. -/
def sketchKeyPut (r : Rec) : String := r.uv ++ ":" ++ r.op

/-- The key queried from the sketch in pass 3: `format!("{}:{}", uv, op)`. -/
def sketchKeyGet (uv op : String) : String := uv ++ ":" ++ op

/-- The line appended to the Buffer artifact for one record:
`format!("{} {} {}\n", uv, c, op)`. -/
def bufferLine (r : Rec) : String := r.uv ++ " " ++ r.c ++ " " ++ r.op ++ "\n"

/-- Buffer artifact path: `{tmp}/epp-quads-{pid}.txt`. -/
def quadsPath (tmp : String) (pid : Nat) : String :=
  tmp ++ "/epp-quads-" ++ toString pid ++ ".txt"

/-- Unique artifact path: `{tmp}/epp-unique-quads-{pid}.txt`. -/
def uniqueQuadsPath (tmp : String) (pid : Nat) : String :=
  tmp ++ "/epp-unique-quads-" ++ toString pid ++ ".txt"

/-! ## The count-min sketch

Modelled from the spec: the `CountMinSketch` body lives in the `bocs` crate
and is not in the repository sources.  Following §4.2 of the spec, the sketch
is a `depth × width` matrix of counters; `put key` increments, in every row
`r`, the counter in the column the row's hash function assigns to `key`;
`get key` takes that counter per row and returns the minimum over the rows,
reported as "absent" (`none`) when the minimum still sits at the all-zero
floor.  The state after a sequence of puts is determined by the list of keys
put, so the matrix is represented by that list: `cmsCounter` recovers the
value of one cell from it. -/

/-- Counter in row `r`, column `col` of the sketch after the puts in `puts`:
the number of put keys the row's hash function sent to that column.
The row hash functions are the parameter `hash`; a key's column in row `r`
is `hash r key % width`. -/
def cmsCounter (hash : Nat → String → Nat) (width : Nat) (puts : List String)
    (r col : Nat) : Nat :=
  (puts.filter (fun key => hash r key % width == col)).length

/-- The numeric estimate for `key`: the minimum, over the rows `0 ≤ r < depth`,
of the counter in `key`'s hashed column of row `r`.  `none` only when
`depth = 0` (excluded by any valid configuration). -/
def cmsEstimate (hash : Nat → String → Nat) (depth width : Nat)
    (puts : List String) (key : String) : Option Nat :=
  match (List.range depth).map
      (fun r => cmsCounter hash width puts r (hash r key % width)) with
  | [] => none
  | x :: xs => some (xs.foldl min x)

/-- `get key`: the minimum-of-rows estimate, with an estimate still at the
pre-update floor `0` reported as an explicit "absent" (`none`). -/
def cmsGet (hash : Nat → String → Nat) (depth width : Nat)
    (puts : List String) (key : String) : Option Nat :=
  match cmsEstimate hash depth width puts key with
  | none => none
  | some est => if est = 0 then none else some est

/-! ## ReportEmit (pass 3) -/

/-- The mutable loop state of the report loop in `main`: the `cur_uv` and
`output` buffers, plus the lines already printed to standard output. -/
structure EmitState where
  cur_uv : String
  output : String
  emitted : List String

/-- Processing of one line of the Unique artifact by the report loop:
split into exactly three whitespace-delimited fields (`collect_tuple`),
on a new `uv` flush the previous group line (skipped while `cur_uv` is still
empty) and restart `output` with the `"{uv} {c}"` header, then append a
`"\t{k}:{op} {pred}"` annotation when the sketch reports the key present.
`none` models the `Missing fields` error returned through `?`. -/
def stepLine (k : Nat) (query : String → Option Nat) (st : EmitState)
    (line : String) : Option EmitState :=
  match splitWS line with
  | [uv, c, op] =>
    let st1 : EmitState :=
      if uv ≠ st.cur_uv then
        { cur_uv := uv
          output := uv ++ " " ++ c
          emitted := if st.cur_uv ≠ "" then st.emitted ++ [st.output] else st.emitted }
      else st
    some (match query (uv ++ ":" ++ op) with
      | some pred =>
        { st1 with
            output := st1.output ++ "\t" ++ toString k ++ ":" ++ op ++ " " ++ toString pred }
      | none => st1)
  | _ => none

/-- The `while let Ok(bytes) = seen.read_line(&mut line)` loop.  Each element
of `seen` is one `read_line` result: `Except.ok line` a read line,
`Except.error ()` an I/O failure; running off the end of the list is
end-of-file (`bytes == 0`, `break`).  An `Except.error` element makes the
`while let` pattern fail, so the loop exits silently with the current state,
exactly as the source does.  A malformed line aborts with `Except.error`
carrying the lines printed before the abort. -/
def runSeen (k : Nat) (query : String → Option Nat) (st : EmitState) :
    List (Except Unit String) → Except (List String) EmitState
  | [] => .ok st
  | .error _ :: _ => .ok st
  | .ok line :: rest =>
    match stepLine k query st line with
    | some st' => runSeen k query st' rest
    | none => .error st.emitted

/-- The whole of pass 3: run the report loop from the empty state, then
print the final `output` buffer unconditionally.  On success the value is
the full list of standard-output lines; on a malformed line the error carries
the lines printed before the abort. -/
def reportEmit (k : Nat) (query : String → Option Nat)
    (seen : List (Except Unit String)) : Except (List String) (List String) :=
  match runSeen k query ⟨"", "", []⟩ seen with
  | .ok st => .ok (st.emitted ++ [st.output])
  | .error es => .error es

/-- Splitting a line into exactly three fields, as `collect_tuple` does. -/
def fields3 (line : String) : Option (String × String × String) :=
  match splitWS line with
  | [uv, c, op] => some (uv, c, op)
  | _ => none

/-- The parsed triples of the well-formed lines of the artifact. -/
def parsedOf (lines : List String) : List (String × String × String) :=
  lines.filterMap fields3

/-! ## Specification-level view of the grouping performed by pass 3 -/

/-- One output group: the `uv` of the group, the `c` of its first line, and
the `(op, estimate)` annotations collected from its lines. -/
structure OutGroup where
  uv : String
  c : String
  anns : List (String × Nat)

/-- The annotation a record contributes: present exactly when the sketch
reports the record's key. -/
def recAnn (query : String → Option Nat) (uv op : String) : List (String × Nat) :=
  match query (uv ++ ":" ++ op) with
  | some pred => [(op, pred)]
  | none => []

/-- Adjacent grouping of parsed records by `uv`, starting from a current
group `g`. -/
def groupsAux (query : String → Option Nat) (g : OutGroup) :
    List (String × String × String) → List OutGroup
  | [] => [g]
  | (uv, c, op) :: rest =>
    if uv = g.uv then
      groupsAux query { g with anns := g.anns ++ recAnn query uv op } rest
    else
      g :: groupsAux query ⟨uv, c, recAnn query uv op⟩ rest

/-- Adjacent grouping of parsed records by `uv`. -/
def groupsOf (query : String → Option Nat) :
    List (String × String × String) → List OutGroup
  | [] => []
  | (uv, c, op) :: rest => groupsAux query ⟨uv, c, recAnn query uv op⟩ rest

/-- The printed form of one annotation: `"\t{k}:{op} {pred}"`. -/
def renderAnn (k : Nat) (a : String × Nat) : String :=
  "\t" ++ toString k ++ ":" ++ a.1 ++ " " ++ toString a.2

/-- The printed form of one group line: `"{uv} {c}"` followed by its
annotations. -/
def renderGroup (k : Nat) (g : OutGroup) : String :=
  g.uv ++ " " ++ g.c ++ String.join (g.anns.map (renderAnn k))

/-- Adjacent deduplication of a list of `uv` values, keeping the first of
each run. -/
def dedupAdjAux (x : String) : List String → List String
  | [] => [x]
  | y :: ys => if y = x then dedupAdjAux x ys else x :: dedupAdjAux y ys

/-- The distinct `uv` values of a `uv`-sorted artifact, in order: adjacent
deduplication. -/
def dedupAdj : List String → List String
  | [] => []
  | x :: xs => dedupAdjAux x xs

/-! ## Uniquify (pass 2) and the run summary -/

/-- The part of `std::process::Output` the orchestrator could have looked at:
the exit status of the external sort. -/
structure ProcOutput where
  status : Int

/-- The Uniquify step as the source performs it:
`Command::new("sort")...output()?;`.  A spawn failure (`Except.error`, e.g.
the `sort` binary missing) propagates through `?`; a successful spawn hands
back the `ProcOutput`, whose `status` field the source never reads. -/
def uniquify (result : Except Unit ProcOutput) : Except Unit Unit :=
  match result with
  | .error e => .error e
  | .ok _ => .ok ()

/-- `u32::pow(10, n)` under wrapping (release) semantics; a debug build
panics at the same inputs on which this wraps. -/
def u32pow10 (n : Nat) : Nat := 10 ^ n % 2 ^ 32

/-- The `{}` rendering of the `f64` value `e = 1.0 / 10^exp` for the
non-overflowing exponents `exp ≤ 9`: `1`, `0.1`, `0.01`, ... -/
def epsStr (exp : Nat) : String :=
  if exp = 0 then "1" else "0." ++ String.mk (List.replicate (exp - 1) '0') ++ "1"

/-- `(e * count as f64).floor() as u64` for `e = 1.0 / 10^exp`.  The source
computes this in IEEE-754 doubles; on the whole reachable domain
(`exp ≤ 9`, since `u32::pow` would overflow beyond it, and `count < 2^31`,
since `count` is an `i32`) the double computation is exact enough that its
floor coincides with the exact `⌊count / 10^exp⌋` used here: the relative
error of the two roundings is below `2 ^ (-53)`, while the closest the exact
value `count / 10^exp` comes to the wrong side of an integer boundary is
`10 ^ (-exp) > 2 ^ 31 * 10 ^ (-exp) * 2 ^ (-52)`. -/
def rangeOf (exp count : Nat) : Nat := count / 10 ^ exp

/-- The one line written to the run-summary artifact. -/
def statsLine (k exp count : Nat) : String :=
  "Covered " ++ toString count ++ " lines of input with k=" ++ toString k ++
    ", e=" ++ epsStr exp ++ " and a range of " ++ toString (rangeOf exp count)

/-- The run-summary artifact path: `format!("{}/epp_stats.txt", out)`. -/
def statsPath (out : String) : String := out ++ "/epp_stats.txt"

/-! ## The whole orchestrator -/

/-- Observable effects of one run. -/
inductive Ev where
  | bufWrite (path line : String)
  | statsWrite (path line : String)
  | sortRun (args : List String)
  | stdout (line : String)
  | del (path : String)
deriving DecidableEq

/-- Recogniser for run-summary writes. -/
def isStatsEv : Ev → Bool
  | .statsWrite _ _ => true
  | _ => false

/-- The whole of `main` after CLI parsing, as a pure function from its
environment to the trace of its effects and its outcome.  Inputs: the row
hash functions and dimensions of the sketch, the CLI values `k` and the
epsilon exponent, the temp and output directories and the process id, the
records the parser yields from standard input, the result of spawning the
external sort, and the `read_line` results on the Unique artifact. -/
def runMain (hash : Nat → String → Nat) (depth width k exp : Nat)
    (tmp out : String) (pid : Nat) (records : List Rec)
    (sortResult : Except Unit ProcOutput)
    (uniqueLines : List (Except Unit String)) :
    List Ev × Except Unit Unit :=
  let qp := quadsPath tmp pid
  let up := uniqueQuadsPath tmp pid
  let bufEvs := records.map (fun r => Ev.bufWrite qp (bufferLine r))
  let puts := records.map sketchKeyPut
  let count := records.length
  let statsEv := Ev.statsWrite (statsPath out) (statsLine k exp count)
  match uniquify sortResult with
  | .error _ => (bufEvs ++ [statsEv], .error ())
  | .ok _ =>
    let pre := bufEvs ++ [statsEv, Ev.sortRun ["-u", "-k", "1", "-o", up, qp]]
    match reportEmit k (cmsGet hash depth width puts) uniqueLines with
    | .error es => (pre ++ es.map Ev.stdout, .error ())
    | .ok outLines =>
      ((pre ++ outLines.map Ev.stdout) ++ [Ev.del up, Ev.del qp], .ok ())

/-! ## Helper lemmas for the sketch lower bound -/

theorem count_le_filter_length (puts : List String) (key : String) (p : String → Bool)
    (hp : p key = true) : puts.count key ≤ (puts.filter p).length := by
  induction puts with
  | nil => simp
  | cons a l ih =>
    by_cases ha : a = key
    · subst ha
      rw [List.filter_cons_of_pos hp]
      simp only [List.count_cons_self, List.length_cons]
      exact Nat.succ_le_succ ih
    · have hc : (a :: l).count key = l.count key := by
        rw [List.count_cons]
        simp [ha]
      rw [hc]
      cases hpa : p a
      · rw [List.filter_cons_of_neg (by simp [hpa])]
        exact ih
      · rw [List.filter_cons_of_pos hpa]
        exact Nat.le_succ_of_le ih

theorem le_foldl_min (c : Nat) (xs : List Nat) (x : Nat) (hx : c ≤ x)
    (hxs : ∀ y ∈ xs, c ≤ y) : c ≤ xs.foldl min x := by
  induction xs generalizing x with
  | nil => exact hx
  | cons y ys ih =>
    exact ih _ (le_min hx (hxs y (by simp))) fun z hz => hxs z (by simp [hz])

theorem count_le_cmsCounter (hash : Nat → String → Nat) (width : Nat)
    (puts : List String) (key : String) (r : Nat) :
    puts.count key ≤ cmsCounter hash width puts r (hash r key % width) :=
  count_le_filter_length puts key _ (by simp)

theorem count_le_cmsEstimate (hash : Nat → String → Nat) (depth width : Nat)
    (puts : List String) (key : String) (hdepth : 1 ≤ depth) :
    ∃ est, cmsEstimate hash depth width puts key = some est ∧
      puts.count key ≤ est := by
  obtain ⟨d, rfl⟩ : ∃ d, depth = d + 1 :=
    ⟨depth - 1, (Nat.succ_pred_eq_of_pos hdepth).symm⟩
  rw [cmsEstimate, List.range_succ_eq_map, List.map_cons]
  refine ⟨_, rfl, ?_⟩
  refine le_foldl_min _ _ _ (count_le_cmsCounter hash width puts key 0) ?_
  intro y hy
  simp only [List.mem_map] at hy
  obtain ⟨r, -, rfl⟩ := hy
  exact count_le_cmsCounter hash width puts key _

/-- C1: for any row hash functions and any sketch dimensions with at least one
row (as every valid `(epsilon, confidence)` configuration yields), after any
sequence of puts the estimate `get key` returns is at least the number of
`put key` calls in that sequence, and a key that was put at least once is
never reported absent: no false negatives. -/
theorem cms_no_false_negatives (hash : Nat → String → Nat) (depth width : Nat)
    (puts : List String) (key : String) (hdepth : 1 ≤ depth) :
    (∀ v, cmsGet hash depth width puts key = some v → puts.count key ≤ v) ∧
      (1 ≤ puts.count key →
        ∃ v, cmsGet hash depth width puts key = some v ∧ puts.count key ≤ v) := by
  obtain ⟨est, hest, hle⟩ := count_le_cmsEstimate hash depth width puts key hdepth
  constructor
  · intro v hv
    rw [cmsGet, hest] at hv
    by_cases h0 : est = 0
    · simp [h0] at hv
    · simp only [h0, if_false, Option.some.injEq] at hv
      exact hv ▸ hle
  · intro h1
    have h0 : est ≠ 0 := by omega
    refine ⟨est, ?_, hle⟩
    rw [cmsGet, hest]
    simp [h0]

/-- Witness for C1: a concrete one-row sketch, two puts of the key, estimate 2. -/
theorem cms_no_false_negatives_witness :
    ((∀ v, cmsGet (fun _ _ => 0) 1 1 ["a:x", "a:x"] "a:x" = some v →
        (["a:x", "a:x"] : List String).count "a:x" ≤ v) ∧
      (1 ≤ (["a:x", "a:x"] : List String).count "a:x" →
        ∃ v, cmsGet (fun _ _ => 0) 1 1 ["a:x", "a:x"] "a:x" = some v ∧
          (["a:x", "a:x"] : List String).count "a:x" ≤ v)) ∧
    cmsGet (fun _ _ => 0) 1 1 ["a:x", "a:x"] "a:x" = some 2 :=
  ⟨cms_no_false_negatives (fun _ _ => 0) 1 1 ["a:x", "a:x"] "a:x" (by decide),
    by decide⟩

/-- C9: with a Unique artifact of zero lines the report loop never runs, yet
the final flush is unconditional, so exactly one line — the empty line — is
printed to standard output. -/
theorem empty_artifact_prints_one_empty_line (k : Nat) (query : String → Option Nat) :
    reportEmit k query [] = .ok [""] := rfl

/-- C10: the `u32` power `10 ^ n` is exact precisely for `n ≤ 9`; from
`n = 10` on the mathematical power no longer fits below `2 ^ 32`, so the
computed power — and with it the derived epsilon — is wrong. -/
theorem u32pow10_exact_iff (n : Nat) :
    (u32pow10 n = 10 ^ n ↔ n ≤ 9) ∧ (10 ≤ n → 2 ^ 32 ≤ 10 ^ n) := by
  have hup : 10 ≤ n → 2 ^ 32 ≤ 10 ^ n := fun h =>
    le_trans (by norm_num) (Nat.pow_le_pow_right (by norm_num) h)
  refine ⟨⟨?_, ?_⟩, hup⟩
  · intro he
    by_contra hn
    push_neg at hn
    have h1 := hup hn
    have h2 : u32pow10 n < 2 ^ 32 := Nat.mod_lt _ (by norm_num)
    omega
  · intro hn
    have h3 : 10 ^ n < 2 ^ 32 :=
      lt_of_le_of_lt (Nat.pow_le_pow_right (by norm_num) hn) (by norm_num)
    exact Nat.mod_eq_of_lt h3

/-- Witness for C10 at the boundary exponents 9 and 10. -/
theorem u32pow10_exact_iff_witness :
    u32pow10 9 = 10 ^ 9 ∧ u32pow10 10 ≠ 10 ^ 10 :=
  ⟨(u32pow10_exact_iff 9).1.mpr (by decide),
    fun h => absurd ((u32pow10_exact_iff 10).1.mp h) (by decide)⟩

/-- C3 counterexample: the source runs the external sort with `.output()?`,
which only fails when the process cannot be spawned; the returned exit
status is discarded, so with exit status 1 the Uniquify step — and a whole
run — still succeeds, contradicting the claim that a non-zero exit status
aborts the run. -/
theorem sort_exit_status_not_checked :
    uniquify (.ok ⟨1⟩) = .ok () ∧ (ProcOutput.mk 1).status ≠ 0 ∧
      (runMain (fun _ _ => 0) 1 1 3 1 "/tmp" "/out" 7 [] (.ok ⟨1⟩) []).2 = .ok () :=
  ⟨rfl, by decide, rfl⟩

/-- C3 amended: a spawn failure of the Deduplicator (e.g. `sort` missing)
propagates through `?` and aborts the run, but the exit status is never
inspected: for every exit status the orchestrator proceeds. -/
theorem uniquify_spawn_check_only :
    (∀ e, uniquify (.error e) = .error e) ∧
      (∀ o, uniquify (.ok o) = .ok ()) ∧
      (∀ hash depth width k exp tmp out pid records uniqueLines,
        (runMain hash depth width k exp tmp out pid records
          (.error ()) uniqueLines).2 = .error ()) :=
  ⟨fun _ => rfl, fun _ => rfl, fun _ _ _ _ _ _ _ _ _ _ => rfl⟩

/-- C5 (on the failing input): an `Err` from `read_line` does not abort:
the `while let Ok(bytes)` pattern quietly ends the loop, the accumulated
group line is still printed, and the run goes on to delete the artifacts
and report success — contradicting "every failure in every phase is
terminal ... with no further output". -/
theorem read_error_silently_ends_loop :
    (∀ k query st rest, runSeen k query st (.error () :: rest) = .ok st) ∧
      reportEmit 0 (fun _ => none) [.ok "a 1 x", .error ()] = .ok ["a 1"] ∧
      (runMain (fun _ _ => 0) 1 1 0 1 "/tmp" "/out" 7 [⟨"a", "1", "x"⟩] (.ok ⟨0⟩)
          [.ok "a 1 x", .error ()]).2 = .ok () :=
  ⟨fun _ _ _ _ => rfl, by rfl, by rfl⟩

/-! ## Tokenisation lemmas -/

theorem string_data_ne_nil (s : String) (h : s ≠ "") : s.data ≠ [] := by
  intro hd
  exact h (String.ext (by simp [hd]))

theorem wsTokensAux_all_nonws (a rest acc : List Char)
    (ha : ∀ ch ∈ a, isWS ch = false) :
    wsTokensAux (a ++ rest) acc = wsTokensAux rest (a.reverse ++ acc) := by
  induction a generalizing acc with
  | nil => simp
  | cons ch a' ih =>
    have hch : isWS ch = false := ha ch (by simp)
    simp only [List.cons_append, wsTokensAux, hch, Bool.false_eq_true, if_false,
      List.reverse_cons, List.append_assoc, List.singleton_append]
    exact ih _ fun c hc => ha c (by simp [hc])

theorem wsTokensAux_ws_head (ch : Char) (cs acc : List Char) (hch : isWS ch = true)
    (hacc : acc ≠ []) :
    wsTokensAux (ch :: cs) acc = String.mk acc.reverse :: wsTokensAux cs [] := by
  cases acc with
  | nil => exact absurd rfl hacc
  | cons x xs => simp [wsTokensAux, hch]

theorem wsTokensAux_nil_acc (acc : List Char) (hacc : acc ≠ []) :
    wsTokensAux [] acc = [String.mk acc.reverse] := by
  cases acc with
  | nil => exact absurd rfl hacc
  | cons x xs => simp [wsTokensAux]

theorem mem_wsTokensAux_ne_empty (cs : List Char) (acc : List Char) (t : String)
    (ht : t ∈ wsTokensAux cs acc) : t ≠ "" := by
  induction cs generalizing acc with
  | nil =>
    rw [wsTokensAux] at ht
    by_cases hacc : acc.isEmpty
    · simp [hacc] at ht
    · simp only [hacc, Bool.false_eq_true, if_false, List.mem_singleton] at ht
      subst ht
      intro he
      have : acc.reverse = [] := by
        simpa using congrArg String.data he
      simp [List.isEmpty_iff, List.reverse_eq_nil_iff.mp this] at hacc
  | cons ch cs ih =>
    rw [wsTokensAux] at ht
    by_cases hch : isWS ch
    · by_cases hacc : acc.isEmpty
      · simp only [hch, hacc, if_true] at ht
        exact ih [] ht
      · simp only [hch, hacc, Bool.false_eq_true, if_false, if_true, List.mem_cons] at ht
        rcases ht with ht | ht
        · subst ht
          intro he
          have : acc.reverse = [] := by
            simpa using congrArg String.data he
          simp [List.isEmpty_iff, List.reverse_eq_nil_iff.mp this] at hacc
        · exact ih [] ht
    · simp only [hch, Bool.false_eq_true, if_false] at ht
      exact ih (ch :: acc) ht

theorem splitWS_token_ne_empty (line : String) (t : String)
    (ht : t ∈ splitWS line) : t ≠ "" :=
  mem_wsTokensAux_ne_empty line.data [] t ht

/-- Splitting the Buffer-artifact line of a well-formed record recovers
exactly its three fields. -/
theorem splitWS_bufferLine (r : Rec) (h : wellFormed r) :
    splitWS (bufferLine r) = [r.uv, r.c, r.op] := by
  obtain ⟨huv, hc, hop, huvw, hcw, hopw⟩ := h
  have hdata : (bufferLine r).data
      = r.uv.data ++ ' ' :: (r.c.data ++ ' ' :: (r.op.data ++ ['\n'])) := by
    simp [bufferLine]
  rw [splitWS, hdata]
  rw [wsTokensAux_all_nonws _ _ _ huvw,
    wsTokensAux_ws_head ' ' _ _ rfl
      (by simp [string_data_ne_nil r.uv huv]),
    wsTokensAux_all_nonws _ _ _ hcw,
    wsTokensAux_ws_head ' ' _ _ rfl
      (by simp [string_data_ne_nil r.c hc])]
  have hop' : wsTokensAux (r.op.data ++ ['\n']) [] = [r.op] := by
    rw [wsTokensAux_all_nonws _ _ _ hopw]
    simp only [List.append_nil]
    rw [wsTokensAux_ws_head '\n' _ _ rfl (by simp [string_data_ne_nil r.op hop])]
    simp [wsTokensAux]
  rw [hop']
  simp

/-- C8: the key put into the sketch in pass 1 and the key queried in pass 3
are the identical composition `uv ++ ":" ++ op`: for a well-formed record,
the Buffer line written for it splits back into exactly its fields, and the
key queried for those fields is exactly the key that was incremented. -/
theorem sketch_key_round_trip (r : Rec) (h : wellFormed r) :
    splitWS (bufferLine r) = [r.uv, r.c, r.op] ∧
      ∀ uv c op, splitWS (bufferLine r) = [uv, c, op] →
        sketchKeyGet uv op = sketchKeyPut r := by
  have hs := splitWS_bufferLine r h
  refine ⟨hs, ?_⟩
  intro uv c op h2
  rw [hs] at h2
  injection h2 with h3 h4
  injection h4 with h5 h6
  injection h6 with h7 h8
  rw [← h3, ← h7]
  rfl

/-- Witness for C8 at a concrete record. -/
theorem sketch_key_round_trip_witness :
    (splitWS (bufferLine ⟨"A", "2", "x"⟩) = ["A", "2", "x"] ∧
      ∀ uv c op, splitWS (bufferLine ⟨"A", "2", "x"⟩) = [uv, c, op] →
        sketchKeyGet uv op = sketchKeyPut ⟨"A", "2", "x"⟩) ∧
    sketchKeyPut (⟨"A", "2", "x"⟩ : Rec) = "A:x" :=
  ⟨sketch_key_round_trip ⟨"A", "2", "x"⟩ (by decide), rfl⟩

/-! ## String-building lemmas for the group renderer -/

theorem string_foldl_append (l : List String) (init : String) :
    l.foldl (· ++ ·) init = init ++ String.join l := by
  induction l generalizing init with
  | nil =>
    show init = init ++ ""
    rw [String.append_empty]
  | cons s l ih =>
    simp only [List.foldl_cons]
    rw [ih (init ++ s)]
    have hjoin : String.join (s :: l) = s ++ String.join l := by
      show (s :: l).foldl (· ++ ·) "" = _
      simp only [List.foldl_cons]
      rw [ih ("" ++ s), String.empty_append]
    rw [hjoin, String.append_assoc]

theorem string_join_append (l1 l2 : List String) :
    String.join (l1 ++ l2) = String.join l1 ++ String.join l2 := by
  show (l1 ++ l2).foldl (· ++ ·) "" = _
  rw [List.foldl_append, string_foldl_append l2 _]
  rfl

theorem output_append_ann (k : Nat) (o op : String) (pred : Nat) :
    o ++ "\t" ++ toString k ++ ":" ++ op ++ " " ++ toString pred =
      o ++ renderAnn k (op, pred) := by
  simp [renderAnn, String.append_assoc]

theorem renderGroup_snoc (k : Nat) (g : OutGroup) (a : String × Nat) :
    renderGroup k { g with anns := g.anns ++ [a] } =
      renderGroup k g ++ renderAnn k a := by
  have h1 : String.join [renderAnn k a] = renderAnn k a := by
    show "" ++ renderAnn k a = renderAnn k a
    exact String.empty_append _
  simp only [renderGroup, List.map_append, string_join_append, List.map_cons,
    List.map_nil, h1]
  rw [← String.append_assoc]

theorem renderGroup_nil_anns (k : Nat) (uv c : String) :
    renderGroup k ⟨uv, c, []⟩ = uv ++ " " ++ c := by
  show uv ++ " " ++ c ++ "" = uv ++ " " ++ c
  rw [String.append_empty]

/-! ## Adjacent deduplication lemmas -/

theorem exists_three_of_length (l : List String) (h : l.length = 3) :
    ∃ a b c, l = [a, b, c] := by
  rcases l with - | ⟨a, l⟩
  · simp at h
  rcases l with - | ⟨b, l⟩
  · simp at h
  rcases l with - | ⟨c, l⟩
  · simp at h
  rcases l with - | ⟨d, l⟩
  · exact ⟨a, b, c, rfl⟩
  · simp at h

theorem groupsAux_map_uv (q : String → Option Nat) (g : OutGroup)
    (rs : List (String × String × String)) :
    (groupsAux q g rs).map OutGroup.uv = dedupAdjAux g.uv (rs.map (fun t => t.1)) := by
  induction rs generalizing g with
  | nil => rfl
  | cons t rest ih =>
    obtain ⟨uv, c, op⟩ := t
    by_cases huv : uv = g.uv
    · simp only [groupsAux, huv, if_true, List.map_cons, dedupAdjAux, if_pos rfl]
      exact ih _
    · simp only [groupsAux, huv, Bool.false_eq_true, if_false, List.map_cons,
        dedupAdjAux, if_neg huv]
      simp [ih]

theorem groupsOf_map_uv (q : String → Option Nat)
    (rs : List (String × String × String)) :
    (groupsOf q rs).map OutGroup.uv = dedupAdj (rs.map (fun t => t.1)) := by
  cases rs with
  | nil => rfl
  | cons t rest =>
    obtain ⟨uv, c, op⟩ := t
    exact groupsAux_map_uv q _ rest

theorem dedupAdjAux_cons_eq (x y : String) (ys : List String) (h : y = x) :
    dedupAdjAux x (y :: ys) = dedupAdjAux x ys := by
  simp [dedupAdjAux, h]

theorem dedupAdjAux_cons_ne (x y : String) (ys : List String) (h : ¬y = x) :
    dedupAdjAux x (y :: ys) = x :: dedupAdjAux y ys := by
  simp [dedupAdjAux, h]

theorem dedupAdjAux_eq_cons (x : String) (xs : List String) :
    ∃ t, dedupAdjAux x xs = x :: t := by
  induction xs generalizing x with
  | nil => exact ⟨[], rfl⟩
  | cons y ys ih =>
    by_cases h : y = x
    · simpa [dedupAdjAux, h] using ih x
    · exact ⟨dedupAdjAux y ys, by simp [dedupAdjAux, h]⟩

theorem dedupAdjAux_chain_lt (x : String) (xs : List String)
    (h : List.Chain' (fun a b : String => a.data ≤ b.data) (x :: xs)) :
    List.Chain' (fun a b : String => a.data < b.data) (dedupAdjAux x xs) := by
  induction xs generalizing x with
  | nil => simp [dedupAdjAux]
  | cons y ys ih =>
    rw [List.chain'_cons] at h
    obtain ⟨hxy, htail⟩ := h
    by_cases hyx : y = x
    · subst hyx
      rw [dedupAdjAux_cons_eq _ _ _ rfl]
      exact ih y htail
    · rw [dedupAdjAux_cons_ne _ _ _ hyx]
      obtain ⟨t, ht⟩ := dedupAdjAux_eq_cons y ys
      rw [ht, List.chain'_cons]
      refine ⟨?_, ht ▸ ih y htail⟩
      exact lt_of_le_of_ne hxy fun hd => hyx (String.ext hd.symm)

theorem chain_lt_nodup (l : List String)
    (h : List.Chain' (fun a b : String => a.data < b.data) l) : l.Nodup := by
  haveI : IsTrans String (fun a b : String => a.data < b.data) :=
    ⟨fun _ _ _ h1 h2 => lt_trans h1 h2⟩
  rw [List.chain'_iff_pairwise] at h
  exact h.imp fun {a b} hlt he => absurd (he ▸ hlt) (lt_irrefl _)

theorem mem_dedupAdjAux (x : String) (xs : List String) (u : String) :
    u ∈ dedupAdjAux x xs ↔ u = x ∨ u ∈ xs := by
  induction xs generalizing x with
  | nil => simp [dedupAdjAux]
  | cons y ys ih =>
    by_cases h : y = x
    · subst h
      rw [dedupAdjAux_cons_eq _ _ _ rfl, ih]
      simp only [List.mem_cons]
      tauto
    · rw [dedupAdjAux_cons_ne _ _ _ h]
      simp only [List.mem_cons, ih, List.mem_cons]

/-! ## The report loop computes the adjacent grouping -/

theorem runSeen_prefix (k : Nat) (q : String → Option Nat) (ls : List String)
    (h3 : ∀ l ∈ ls, (splitWS l).length = 3)
    (g : OutGroup) (es : List String) (hg : g.uv ≠ "")
    (tail : List (Except Unit String)) :
    ∃ gs gl, groupsAux q g (parsedOf ls) = gs ++ [gl] ∧
      runSeen k q ⟨g.uv, renderGroup k g, es⟩ (ls.map Except.ok ++ tail) =
        runSeen k q ⟨gl.uv, renderGroup k gl, es ++ gs.map (renderGroup k)⟩ tail ∧
      gl.uv ≠ "" := by
  induction ls generalizing g es with
  | nil =>
    refine ⟨[], g, rfl, ?_, hg⟩
    simp
  | cons l ls ih =>
    obtain ⟨uv, c, op, hl⟩ := exists_three_of_length (splitWS l) (h3 l (by simp))
    have huvne : uv ≠ "" := splitWS_token_ne_empty l uv (by rw [hl]; simp)
    have hparsed : parsedOf (l :: ls) = (uv, c, op) :: parsedOf ls := by
      simp [parsedOf, List.filterMap_cons, fields3, hl]
    have h3' : ∀ x ∈ ls, (splitWS x).length = 3 := fun x hx => h3 x (by simp [hx])
    rw [hparsed]
    simp only [List.map_cons, List.cons_append]
    rw [show runSeen k q ⟨g.uv, renderGroup k g, es⟩
        (Except.ok l :: (ls.map Except.ok ++ tail)) =
        match stepLine k q ⟨g.uv, renderGroup k g, es⟩ l with
        | some st' => runSeen k q st' (ls.map Except.ok ++ tail)
        | none => .error es
      from rfl]
    by_cases huv : uv = g.uv
    · rw [huv] at hl huvne
      rw [huv]
      cases hq : q (g.uv ++ ":" ++ op) with
      | none =>
        have hstep : stepLine k q ⟨g.uv, renderGroup k g, es⟩ l =
            some ⟨g.uv, renderGroup k g, es⟩ := by
          simp [stepLine, hl, hq]
        rw [hstep]
        have hgroups : groupsAux q g ((g.uv, c, op) :: parsedOf ls) =
            groupsAux q g (parsedOf ls) := by
          have heta : ({ g with anns := g.anns ++ recAnn q g.uv op } : OutGroup) = g := by
            simp [recAnn, hq]
          simp [groupsAux, heta]
        rw [hgroups]
        exact ih h3' g es hg
      | some pred =>
        have hout : renderGroup k g ++ "\t" ++ toString k ++ ":" ++ op ++ " " ++
            toString pred = renderGroup k { g with anns := g.anns ++ [(op, pred)] } := by
          rw [output_append_ann, renderGroup_snoc]
        have hstep : stepLine k q ⟨g.uv, renderGroup k g, es⟩ l =
            some ⟨g.uv, renderGroup k { g with anns := g.anns ++ [(op, pred)] }, es⟩ := by
          simp [stepLine, hl, hq, hout]
        rw [hstep]
        have hgroups : groupsAux q g ((g.uv, c, op) :: parsedOf ls) =
            groupsAux q { g with anns := g.anns ++ [(op, pred)] } (parsedOf ls) := by
          simp [groupsAux, recAnn, hq]
        rw [hgroups]
        exact ih h3' { g with anns := g.anns ++ [(op, pred)] } es hg
    · have hfresh : groupsAux q g ((uv, c, op) :: parsedOf ls) =
          g :: groupsAux q ⟨uv, c, recAnn q uv op⟩ (parsedOf ls) := by
        simp [groupsAux, huv]
      cases hq : q (uv ++ ":" ++ op) with
      | none =>
        have hstep : stepLine k q ⟨g.uv, renderGroup k g, es⟩ l =
            some ⟨uv, renderGroup k ⟨uv, c, recAnn q uv op⟩,
              es ++ [renderGroup k g]⟩ := by
          simp [stepLine, hl, hq, huv, hg, recAnn, renderGroup_nil_anns]
        rw [hstep]
        obtain ⟨gs, gl, h1, h2, hgl⟩ :=
          ih h3' ⟨uv, c, recAnn q uv op⟩ (es ++ [renderGroup k g]) huvne
        dsimp only at h2
        refine ⟨g :: gs, gl, ?_, ?_, hgl⟩
        · rw [hfresh, h1]
          rfl
        · show runSeen k q ⟨uv, renderGroup k ⟨uv, c, recAnn q uv op⟩,
            es ++ [renderGroup k g]⟩ (ls.map Except.ok ++ tail) = _
          rw [h2]
          have hlist : es ++ [renderGroup k g] ++ List.map (renderGroup k) gs =
              es ++ List.map (renderGroup k) (g :: gs) := by
            simp
          rw [hlist]
      | some pred =>
        have hout : uv ++ " " ++ c ++ "\t" ++ toString k ++ ":" ++ op ++ " " ++
            toString pred = renderGroup k ⟨uv, c, [(op, pred)]⟩ := by
          rw [output_append_ann]
          have hsnoc := renderGroup_snoc k ⟨uv, c, []⟩ (op, pred)
          simp only [List.nil_append] at hsnoc
          rw [hsnoc, renderGroup_nil_anns]
        have hstep : stepLine k q ⟨g.uv, renderGroup k g, es⟩ l =
            some ⟨uv, renderGroup k ⟨uv, c, recAnn q uv op⟩,
              es ++ [renderGroup k g]⟩ := by
          simp [stepLine, hl, hq, huv, hg, recAnn, hout]
        rw [hstep]
        obtain ⟨gs, gl, h1, h2, hgl⟩ :=
          ih h3' ⟨uv, c, recAnn q uv op⟩ (es ++ [renderGroup k g]) huvne
        dsimp only at h2
        refine ⟨g :: gs, gl, ?_, ?_, hgl⟩
        · rw [hfresh, h1]
          rfl
        · show runSeen k q ⟨uv, renderGroup k ⟨uv, c, recAnn q uv op⟩,
            es ++ [renderGroup k g]⟩ (ls.map Except.ok ++ tail) = _
          rw [h2]
          have hlist : es ++ [renderGroup k g] ++ List.map (renderGroup k) gs =
              es ++ List.map (renderGroup k) (g :: gs) := by
            simp
          rw [hlist]

theorem renderGroup_single (k : Nat) (uv c op : String) (pred : Nat) :
    uv ++ " " ++ c ++ "\t" ++ toString k ++ ":" ++ op ++ " " ++ toString pred =
      renderGroup k ⟨uv, c, [(op, pred)]⟩ := by
  rw [output_append_ann]
  have hsnoc := renderGroup_snoc k ⟨uv, c, []⟩ (op, pred)
  simp only [List.nil_append] at hsnoc
  rw [hsnoc, renderGroup_nil_anns]

theorem runSeen_start (k : Nat) (q : String → Option Nat) (l : String) (ls : List String)
    (h3 : ∀ x ∈ l :: ls, (splitWS x).length = 3)
    (tail : List (Except Unit String)) :
    ∃ gs gl, groupsOf q (parsedOf (l :: ls)) = gs ++ [gl] ∧
      runSeen k q ⟨"", "", []⟩ ((l :: ls).map Except.ok ++ tail) =
        runSeen k q ⟨gl.uv, renderGroup k gl, gs.map (renderGroup k)⟩ tail ∧
      gl.uv ≠ "" := by
  obtain ⟨uv, c, op, hl⟩ := exists_three_of_length (splitWS l) (h3 l (by simp))
  have huvne : uv ≠ "" := splitWS_token_ne_empty l uv (by rw [hl]; simp)
  have hparsed : parsedOf (l :: ls) = (uv, c, op) :: parsedOf ls := by
    simp [parsedOf, List.filterMap_cons, fields3, hl]
  have h3' : ∀ x ∈ ls, (splitWS x).length = 3 := fun x hx => h3 x (by simp [hx])
  rw [hparsed]
  simp only [List.map_cons, List.cons_append]
  rw [show runSeen k q ⟨"", "", []⟩ (Except.ok l :: (ls.map Except.ok ++ tail)) =
      match stepLine k q ⟨"", "", []⟩ l with
      | some st' => runSeen k q st' (ls.map Except.ok ++ tail)
      | none => .error ([] : List String)
    from rfl]
  have hstep : stepLine k q ⟨"", "", []⟩ l =
      some ⟨uv, renderGroup k ⟨uv, c, recAnn q uv op⟩, []⟩ := by
    cases hq : q (uv ++ ":" ++ op) with
    | none => simp [stepLine, hl, hq, huvne, recAnn, renderGroup_nil_anns]
    | some pred => simp [stepLine, hl, hq, huvne, recAnn, renderGroup_single]
  rw [hstep]
  obtain ⟨gs, gl, h1, h2, hgl⟩ :=
    runSeen_prefix k q ls h3' ⟨uv, c, recAnn q uv op⟩ [] huvne tail
  dsimp only at h2
  refine ⟨gs, gl, h1, ?_, hgl⟩
  show runSeen k q ⟨uv, renderGroup k ⟨uv, c, recAnn q uv op⟩, []⟩
    (ls.map Except.ok ++ tail) = _
  rw [h2]
  rfl

/-- C2 counterexample: the empty Unique artifact contains no distinct uv
values, yet ReportEmit still prints one line (the empty line): the
one-line-per-distinct-uv correspondence fails at the empty artifact. -/
theorem report_emit_empty_counterexample :
    reportEmit 3 (fun _ => none) [] = .ok [""] ∧
      dedupAdj ((parsedOf []).map (fun t => t.1)) = [] ∧
      ([""] : List String).length ≠ ([] : List String).length :=
  ⟨rfl, rfl, by decide⟩

/-- C2 amended: for a nonempty Unique artifact whose lines all split into
exactly three fields and whose uv fields are non-decreasing in the
Deduplicator's (lexicographic) sort order, ReportEmit prints exactly the
rendered group lines of the adjacent uv-grouping: one line per distinct uv,
with the groups' uv values pairwise distinct, in non-decreasing order, and
ranging over exactly the uv values of the artifact; the flushes happen at
each uv change (none before the first group) and once at end of input,
which is what the grouping computes.  (At the empty artifact the claim
fails: a single empty line is printed, see the counterexample.) -/
theorem report_emit_groups (k : Nat) (q : String → Option Nat) (lines : List String)
    (h3 : ∀ l ∈ lines, (splitWS l).length = 3) (hne : lines ≠ [])
    (hsorted : List.Chain' (fun a b : String => a.data ≤ b.data)
      ((parsedOf lines).map (fun t => t.1))) :
    ∃ gs, reportEmit k q (lines.map Except.ok) = .ok (List.map (renderGroup k) gs) ∧
      List.map OutGroup.uv gs = dedupAdj ((parsedOf lines).map (fun t => t.1)) ∧
      (List.map OutGroup.uv gs).Nodup ∧
      List.Chain' (fun a b : String => a.data ≤ b.data) (List.map OutGroup.uv gs) ∧
      (∀ u, u ∈ List.map OutGroup.uv gs ↔ u ∈ (parsedOf lines).map (fun t => t.1)) := by
  obtain ⟨l, ls, rfl⟩ := List.exists_cons_of_ne_nil hne
  obtain ⟨uv, c, op, hl⟩ := exists_three_of_length (splitWS l) (h3 l (by simp))
  have hparsed : parsedOf (l :: ls) = (uv, c, op) :: parsedOf ls := by
    simp [parsedOf, List.filterMap_cons, fields3, hl]
  obtain ⟨gs, gl, h1, h2, hgl⟩ := runSeen_start k q l ls h3 []
  rw [List.append_nil] at h2
  have hmap : (gs ++ [gl]).map OutGroup.uv =
      dedupAdj ((parsedOf (l :: ls)).map (fun t => t.1)) := by
    rw [← h1]
    exact groupsOf_map_uv q _
  have huvs : (parsedOf (l :: ls)).map (fun t => t.1) =
      uv :: (parsedOf ls).map (fun t => t.1) := by
    rw [hparsed]
    rfl
  have hchainlt : List.Chain' (fun a b : String => a.data < b.data)
      (dedupAdj ((parsedOf (l :: ls)).map (fun t => t.1))) := by
    rw [huvs] at hsorted ⊢
    exact dedupAdjAux_chain_lt _ _ hsorted
  refine ⟨gs ++ [gl], ?_, hmap, ?_, ?_, ?_⟩
  · rw [reportEmit, h2]
    show Except.ok (gs.map (renderGroup k) ++ [renderGroup k gl]) =
      Except.ok ((gs ++ [gl]).map (renderGroup k))
    rw [List.map_append]
    rfl
  · rw [hmap]
    exact chain_lt_nodup _ hchainlt
  · rw [hmap]
    exact hchainlt.imp fun a b hab => le_of_lt hab
  · intro u
    rw [hmap, huvs]
    show u ∈ dedupAdjAux uv ((parsedOf ls).map (fun t => t.1)) ↔ _
    rw [mem_dedupAdjAux]
    simp

/-- Witness for the amended C2 at a two-line sorted artifact, together with a
concrete evaluation of the emitted lines. -/
theorem report_emit_groups_witness :
    ((∀ l ∈ ["A 2 x", "B 5 y"], (splitWS l).length = 3) ∧
      (["A 2 x", "B 5 y"] : List String) ≠ [] ∧
      List.Chain' (fun a b : String => a.data ≤ b.data)
        ((parsedOf ["A 2 x", "B 5 y"]).map (fun t => t.1))) ∧
    (∃ gs, reportEmit 3 (fun _ => some 7) (["A 2 x", "B 5 y"].map Except.ok) =
        .ok (List.map (renderGroup 3) gs) ∧
      List.map OutGroup.uv gs =
        dedupAdj ((parsedOf ["A 2 x", "B 5 y"]).map (fun t => t.1)) ∧
      (List.map OutGroup.uv gs).Nodup ∧
      List.Chain' (fun a b : String => a.data ≤ b.data) (List.map OutGroup.uv gs) ∧
      (∀ u, u ∈ List.map OutGroup.uv gs ↔
        u ∈ (parsedOf ["A 2 x", "B 5 y"]).map (fun t => t.1))) ∧
    reportEmit 3 (fun _ => some 7) (["A 2 x", "B 5 y"].map Except.ok) =
      .ok ["A 2\t3:x 7", "B 5\t3:y 7"] :=
  ⟨⟨by decide, by decide,
    by
      show List.Chain' (fun a b : String => a.data ≤ b.data) ["A", "B"]
      exact List.chain'_cons.mpr ⟨by decide, List.chain'_singleton _⟩⟩,
    report_emit_groups 3 (fun _ => some 7) ["A 2 x", "B 5 y"]
      (by decide) (by decide)
      (by
        show List.Chain' (fun a b : String => a.data ≤ b.data) ["A", "B"]
        exact List.chain'_cons.mpr ⟨by decide, List.chain'_singleton _⟩),
    by rfl⟩

/-- C4: a Unique-artifact line with fewer than three whitespace-delimited
fields makes `collect_tuple` return `None`; ReportEmit aborts with the
`Missing fields` error, and standard output holds exactly the group lines
flushed before the bad line — the partially built (unflushed) group line is
not emitted. -/
theorem malformed_line_aborts (k : Nat) (q : String → Option Nat)
    (pre : List String) (bad : String) (rest : List (Except Unit String))
    (h3 : ∀ l ∈ pre, (splitWS l).length = 3)
    (hbad : (splitWS bad).length < 3) :
    reportEmit k q (pre.map Except.ok ++ Except.ok bad :: rest) =
      .error (((groupsOf q (parsedOf pre)).dropLast).map (renderGroup k)) := by
  have hstep : ∀ st : EmitState, stepLine k q st bad = none := by
    intro st
    rcases hsp : splitWS bad with - | ⟨a, - | ⟨b, - | ⟨cc, - | ⟨d, t⟩⟩⟩⟩
    · rw [stepLine, hsp]
    · rw [stepLine, hsp]
    · rw [stepLine, hsp]
    · rw [hsp] at hbad
      simp at hbad
    · rw [hsp] at hbad
      simp at hbad
      omega
  cases pre with
  | nil =>
    show reportEmit k q (Except.ok bad :: rest) = _
    rw [reportEmit]
    rw [show runSeen k q ⟨"", "", []⟩ (Except.ok bad :: rest) =
        match stepLine k q ⟨"", "", []⟩ bad with
        | some st' => runSeen k q st' rest
        | none => .error ([] : List String)
      from rfl]
    rw [hstep]
    rfl
  | cons l ls =>
    obtain ⟨gs, gl, h1, h2, hgl⟩ := runSeen_start k q l ls h3 (Except.ok bad :: rest)
    rw [reportEmit]
    rw [show (l :: ls).map Except.ok ++ Except.ok bad :: rest =
        (l :: ls).map Except.ok ++ (Except.ok bad :: rest) from rfl]
    rw [h2]
    rw [show runSeen k q ⟨gl.uv, renderGroup k gl, gs.map (renderGroup k)⟩
        (Except.ok bad :: rest) =
        match stepLine k q ⟨gl.uv, renderGroup k gl, gs.map (renderGroup k)⟩ bad with
        | some st' => runSeen k q st' rest
        | none => .error (gs.map (renderGroup k))
      from rfl]
    rw [hstep, h1, List.dropLast_concat]

/-- Witness for C4: one well-formed line, then a two-field line; the run
aborts with no output at all, the accumulated `A 2` group unflushed. -/
theorem malformed_line_aborts_witness :
    ((∀ l ∈ ["A 2 x"], (splitWS l).length = 3) ∧ (splitWS "B 5").length < 3) ∧
      reportEmit 3 (fun _ => none) (["A 2 x"].map Except.ok ++ Except.ok "B 5" :: []) =
        .error (((groupsOf (fun _ => none) (parsedOf ["A 2 x"])).dropLast).map
          (renderGroup 3)) ∧
      reportEmit 3 (fun _ => none) [Except.ok "A 2 x", Except.ok "B 5"] =
        .error [] :=
  ⟨⟨by decide, by decide⟩,
    malformed_line_aborts 3 (fun _ => none) ["A 2 x"] "B 5" [] (by decide) (by decide),
    by rfl⟩

/-! ## Run-summary and cleanup -/

theorem filter_stats_map_bufWrite (p : String) (records : List Rec) :
    (records.map (fun r => Ev.bufWrite p (bufferLine r))).filter isStatsEv = [] := by
  induction records with
  | nil => rfl
  | cons r rs ih => simp [List.filter_cons, isStatsEv, ih]

theorem filter_stats_map_stdout (ls : List String) :
    (ls.map Ev.stdout).filter isStatsEv = [] := by
  induction ls with
  | nil => rfl
  | cons s ss ih => simp [List.filter_cons, isStatsEv, ih]

/-- C6: independently of how the later phases fare, the trace of a run holds
exactly one run-summary write: to the path `out ++ "/epp_stats.txt"`, with
the single line `Covered {N} lines of input with k={k}, e={epsilon} and a
range of {range}` for `N` the number of parsed records, and the range equal
to `⌊N / 10 ^ exp⌋ = ⌊epsilon × N⌋`.  The hypotheses delimit the domain on
which the model is exact: `exp ≤ 9` (no `u32` overflow in the epsilon
derivation) and `N < 2 ^ 31` (the source counts in an `i32`, and the IEEE
double computation of the range then coincides with the exact one). -/
theorem stats_line_written (hash : Nat → String → Nat) (depth width k exp : Nat)
    (tmp out : String) (pid : Nat) (records : List Rec)
    (sortResult : Except Unit ProcOutput) (uniqueLines : List (Except Unit String))
    (hexp : exp ≤ 9) (hcount : records.length < 2 ^ 31) :
    (runMain hash depth width k exp tmp out pid records
        sortResult uniqueLines).1.filter isStatsEv =
      [Ev.statsWrite (statsPath out) (statsLine k exp records.length)] ∧
      rangeOf exp records.length = records.length / 10 ^ exp := by
  refine ⟨?_, rfl⟩
  cases sortResult with
  | error e =>
    simp [runMain, uniquify, List.filter_append, filter_stats_map_bufWrite,
      List.filter_cons, isStatsEv]
  | ok p =>
    cases hr : reportEmit k (cmsGet hash depth width (records.map sketchKeyPut))
        uniqueLines with
    | error es =>
      simp [runMain, uniquify, hr, List.filter_append, filter_stats_map_bufWrite,
        filter_stats_map_stdout, List.filter_cons, isStatsEv]
    | ok outLines =>
      simp [runMain, uniquify, hr, List.filter_append, filter_stats_map_bufWrite,
        filter_stats_map_stdout, List.filter_cons, isStatsEv]

/-- Witness for C6 at a one-record run, with the summary line evaluated. -/
theorem stats_line_written_witness :
    (1 ≤ 9 ∧ (1 : Nat) < 2 ^ 31) ∧
    ((runMain (fun _ _ => 0) 1 1 3 1 "/tmp" "/out" 7 [⟨"A", "2", "x"⟩] (.ok ⟨0⟩)
        [.ok "A 2 x"]).1.filter isStatsEv =
      [Ev.statsWrite (statsPath "/out") (statsLine 3 1 1)] ∧
      rangeOf 1 1 = 1 / 10 ^ 1) ∧
    statsLine 3 1 1 = "Covered 1 lines of input with k=3, e=0.1 and a range of 0" :=
  ⟨⟨by decide, by decide⟩,
    (stats_line_written (fun _ _ => 0) 1 1 3 1 "/tmp" "/out" 7 [⟨"A", "2", "x"⟩]
      (.ok ⟨0⟩) [.ok "A 2 x"] (by decide) (by decide)).imp id id,
    by rfl⟩

/-- C7: whenever a run reports success, its trace ends with the deletion of
the Unique artifact followed by the deletion of the Buffer artifact —
both ephemeral artifacts are deleted before success is reported. -/
theorem cleanup_before_success (hash : Nat → String → Nat) (depth width k exp : Nat)
    (tmp out : String) (pid : Nat) (records : List Rec)
    (sortResult : Except Unit ProcOutput) (uniqueLines : List (Except Unit String))
    (hok : (runMain hash depth width k exp tmp out pid records
      sortResult uniqueLines).2 = .ok ()) :
    ∃ pre, (runMain hash depth width k exp tmp out pid records
        sortResult uniqueLines).1 =
      pre ++ [Ev.del (uniqueQuadsPath tmp pid), Ev.del (quadsPath tmp pid)] := by
  cases sortResult with
  | error e => simp [runMain, uniquify] at hok
  | ok p =>
    cases hr : reportEmit k (cmsGet hash depth width (records.map sketchKeyPut))
        uniqueLines with
    | error es => simp [runMain, uniquify, hr] at hok
    | ok outLines =>
      simp only [runMain, uniquify, hr]
      exact ⟨_, rfl⟩

/-- Witness for C7 at a concrete successful run. -/
theorem cleanup_before_success_witness :
    (runMain (fun _ _ => 0) 1 1 3 1 "/tmp" "/out" 7 [⟨"A", "2", "x"⟩] (.ok ⟨0⟩)
        [.ok "A 2 x"]).2 = .ok () ∧
    ∃ pre, (runMain (fun _ _ => 0) 1 1 3 1 "/tmp" "/out" 7 [⟨"A", "2", "x"⟩]
        (.ok ⟨0⟩) [.ok "A 2 x"]).1 =
      pre ++ [Ev.del (uniqueQuadsPath "/tmp" 7), Ev.del (quadsPath "/tmp" 7)] :=
  ⟨by rfl,
    cleanup_before_success (fun _ _ => 0) 1 1 3 1 "/tmp" "/out" 7 [⟨"A", "2", "x"⟩]
      (.ok ⟨0⟩) [.ok "A 2 x"] (by rfl)⟩

end Bocsr
